import Mathlib

/-!
Verification of the crossword CSP solver in `generate.py`
(`CrosswordCreator`: node consistency, AC-3 propagation, backtracking search).

The `Crossword` puzzle model (`crossword.py`) is not part of the sources at
hand, so it is modelled abstractly from the specification: a list of slot
variables, a vocabulary, and an overlap relation; `neighborsOf` is the derived
view described in the spec.  Everything in `generate.py` is translated
directly: domains are per-variable word lists, the mutable `assignment` dict of
`backtrack` is an explicit association list threaded through the search, and
the worklist loop of `ac3` runs on explicit fuel (a sufficient bound is proved
below).
-/

/-- A slot variable: starting cell, direction, declared length.
Modelled from the spec: §3 "Variable (a slot): identified by its starting
cell (row, column), a direction (ACROSS or DOWN), and a length". -/
structure Slot where
  row : Nat
  col : Nat
  down : Bool
  length : Nat
deriving DecidableEq, Repr

/-- Words are sequences of letters. -/
abbrev Word := List Char

/-- The puzzle model.  Modelled from the spec: §2/§4.1 — the full set of
variables, the vocabulary, and the overlap relation giving the index pair
`(i, j)` for crossing slots (`none` = no constraint between them). -/
structure Crossword where
  vars : List Slot
  words : List Word
  overlaps : Slot → Slot → Option (Nat × Nat)

/-- Modelled from the spec: §3 "Neighbor relation: derived view over the
overlap relation — the set of variables overlapping a given variable ...
must exclude the variable itself". -/
def neighborsOf (cw : Crossword) (x : Slot) : List Slot :=
  cw.vars.filter (fun y => decide (y ≠ x) && (cw.overlaps x y).isSome)

/-- Per-variable candidate word sets (`self.domains`). -/
abbrev Domains := Slot → List Word

/-- Pointwise update of the domain store at one variable. -/
def updateD (d : Domains) (x : Slot) (l : List Word) : Domains :=
  fun v => if v = x then l else d v

/-- `self.domains = {var: words.copy() for var in variables}`. -/
def initialDomains (cw : Crossword) : Domains := fun _ => cw.words

/-- Letter of a word at an index (`word[i]`). -/
def letterAt (w : Word) (i : Nat) : Char := w.getD i ' '

/-- `enforce_node_consistency`: remove from each variable's domain every word
whose length differs from the variable's declared length. -/
def enforce_node_consistency (cw : Crossword) (d : Domains) : Domains :=
  fun v =>
    if v ∈ cw.vars then (d v).filter (fun w => w.length == v.length)
    else d v

/-- `revise(x, y)`: drop from `x`'s domain every word with no support in `y`'s
domain at the overlap index pair; report whether anything was removed. -/
def revise (cw : Crossword) (d : Domains) (x y : Slot) : Bool × Domains :=
  match cw.overlaps x y with
  | none => (false, d)
  | some (i, j) =>
    let keep := (d x).filter
      (fun wx => (d y).any (fun wy => letterAt wx i == letterAt wy j))
    (keep.length != (d x).length, updateD d x keep)

/-- The default arc queue: `[(x, y) for x in self.domains for y in neighbors(x)]`. -/
def defaultArcs (cw : Crossword) : List (Slot × Slot) :=
  cw.vars.flatMap (fun x => (neighborsOf cw x).map (fun y => (x, y)))

/-- The FIFO worklist loop of `ac3`, with explicit fuel (`none` = fuel ran
out; a sufficient fuel bound is proved below). -/
def ac3Loop (cw : Crossword) : Nat → List (Slot × Slot) → Domains →
    Option (Bool × Domains)
  | 0, _, _ => none
  | _ + 1, [], d => some (true, d)
  | fuel + 1, (x, y) :: rest, d =>
    let r := revise cw d x y
    if r.1 then
      if (r.2 x).isEmpty then some (false, r.2)
      else
        ac3Loop cw fuel
          (rest ++ ((neighborsOf cw x).filter (fun z => decide (z ≠ y))).map
            (fun z => (z, x)))
          r.2
    else ac3Loop cw fuel rest r.2

/-- Total size of the domain store over the puzzle's variables. -/
def totalSize (cw : Crossword) (d : Domains) : Nat :=
  (cw.vars.map (fun v => (d v).length)).sum

/-- Weight of one queued arc in the termination measure. -/
def arcWeight (cw : Crossword) (p : Slot × Slot) : Nat :=
  if p.1 ∈ cw.vars then 1 else cw.vars.length + 2

/-- Termination measure for the AC-3 worklist loop: each iteration strictly
decreases it. -/
def ac3Measure (cw : Crossword) (d : Domains) (q : List (Slot × Slot)) : Nat :=
  (q.map (arcWeight cw)).sum + totalSize cw d * (cw.vars.length + 1)

/-- `ac3(arcs=None)`: run the worklist to completion (the fuel bound is shown
sufficient below, so the fallback value is never used). -/
def ac3 (cw : Crossword) (d : Domains) (arcs : Option (List (Slot × Slot))) :
    Bool × Domains :=
  let q := arcs.getD (defaultArcs cw)
  (ac3Loop cw (ac3Measure cw d q + 1) q d).getD (false, d)

/-- The search's `assignment` dict: an association list from variables to
words (insertion-ordered, as a Python dict is). -/
abbrev AssignL := List (Slot × Word)

/-- `assignment[var] = w`: overwrite in place if present, else append. -/
def assignSet (a : AssignL) (var : Slot) (w : Word) : AssignL :=
  if a.any (fun p => p.1 == var) then
    a.map (fun p => if p.1 == var then (var, w) else p)
  else a ++ [(var, w)]

/-- `del assignment[var]`. -/
def assignDel (a : AssignL) (var : Slot) : AssignL :=
  a.filter (fun p => p.1 != var)

/-- `assignment_complete`: `set(assignment.keys()) == set(variables)`. -/
def assignment_complete (cw : Crossword) (a : AssignL) : Bool :=
  cw.vars.all (fun v => a.any (fun p => p.1 == v)) &&
    a.all (fun p => cw.vars.contains p.1)

/-- `consistent`: pairwise-distinct values, per-variable length match, letter
agreement at every overlap between assigned neighbors. -/
def consistent (cw : Crossword) (a : AssignL) : Bool :=
  decide ((a.map Prod.snd).Nodup) &&
  a.all (fun p => p.2.length == p.1.length) &&
  a.all (fun p =>
    (neighborsOf cw p.1).all (fun nb =>
      match a.lookup nb with
      | some wnb =>
        match cw.overlaps p.1 nb with
        | some (i, j) => letterAt p.2 i == letterAt wnb j
        | none => true
      | none => true))

/-- Conflict count of a candidate value in `order_domain_values`: over each
unassigned neighbor, the number of its current candidates mismatching at the
shared position. -/
def countConflicts (cw : Crossword) (d : Domains) (a : AssignL) (var : Slot)
    (w : Word) : Nat :=
  ((neighborsOf cw var).map (fun nb =>
    if a.any (fun p => p.1 == nb) then 0
    else
      match cw.overlaps var nb with
      | some (i, j) =>
        ((d nb).filter (fun wnb => letterAt w i != letterAt wnb j)).length
      | none => 0)).sum

/-- `order_domain_values`: the variable's candidates sorted (stably, like
Python's `sorted`) by ascending conflict count; least-constraining value
first. -/
def order_domain_values (cw : Crossword) (d : Domains) (var : Slot)
    (a : AssignL) : List Word :=
  (d var).insertionSort
    (fun w1 w2 => countConflicts cw d a var w1 ≤ countConflicts cw d a var w2)

/-- `select_unassigned_variable`: minimum remaining values, ties broken by
highest degree, first such in variable order (Python's `min`). -/
def select_unassigned_variable (cw : Crossword) (d : Domains) (a : AssignL) :
    Option Slot :=
  match cw.vars.filter (fun v => !a.any (fun p => p.1 == v)) with
  | [] => none
  | u :: us =>
    some (us.foldl
      (fun best v =>
        if (d v).length < (d best).length ∨
            ((d v).length = (d best).length ∧
              (neighborsOf cw best).length < (neighborsOf cw v).length)
        then v else best)
      u)

/-- Outcome of one `backtrack` call: the returned value, the state of the
(shared, mutated-in-place) `assignment` dict at return, the state of
`self.domains` at return, and the number of `backtrack` invocations made. -/
structure BtOut where
  res : Option AssignL
  assign : AssignL
  doms : Domains
  calls : Nat

/-- The `for value in order_domain_values(...)` loop body of `backtrack`:
tentatively bind, check consistency, recurse through `bt`, and undo the
binding on every failing path (Python's truthiness test `if result:` treats
an empty dict as failure). -/
def tryValues (cw : Crossword) (bt : Domains → AssignL → BtOut) (var : Slot) :
    List Word → Domains → AssignL → BtOut
  | [], d, a => ⟨none, a, d, 0⟩
  | w :: ws, d, a =>
    let a1 := assignSet a var w
    if consistent cw a1 then
      let o := bt d a1
      match o.res with
      | some r =>
        if r.isEmpty then
          let t := tryValues cw bt var ws o.doms (assignDel o.assign var)
          ⟨t.res, t.assign, t.doms, o.calls + t.calls⟩
        else ⟨some r, o.assign, o.doms, o.calls⟩
      | none =>
        let t := tryValues cw bt var ws o.doms (assignDel o.assign var)
        ⟨t.res, t.assign, t.doms, o.calls + t.calls⟩
    else tryValues cw bt var ws d (assignDel a1 var)

/-- `backtrack`: return the assignment once complete, otherwise pick an
unassigned variable and try its values in heuristic order.  Fuel bounds the
recursion depth (`solve` supplies `variables.length + 1`). -/
def backtrack (cw : Crossword) : Nat → Domains → AssignL → BtOut
  | 0, d, a => ⟨none, a, d, 1⟩
  | fuel + 1, d, a =>
    if assignment_complete cw a then ⟨some a, a, d, 1⟩
    else
      match select_unassigned_variable cw d a with
      | none => ⟨none, a, d, 1⟩
      | some var =>
        let t :=
          tryValues cw (backtrack cw fuel) var (order_domain_values cw d var a)
            d a
        ⟨t.res, t.assign, t.doms, 1 + t.calls⟩

/-- `solve`, instrumented with the number of `backtrack` invocations: enforce
node consistency, run `ac3` (its Boolean result is discarded, as in the
source), then search. -/
def solveFull (cw : Crossword) : Option AssignL × Nat :=
  let d0 := enforce_node_consistency cw (initialDomains cw)
  let p := ac3 cw d0 none
  let b := backtrack cw (cw.vars.length + 1) p.2 []
  (b.res, b.calls)

/-- `solve`: the value returned to the caller. -/
def solve (cw : Crossword) : Option AssignL := (solveFull cw).1

/-! ### Basic lemmas about the domain store and `revise` -/

lemma updateD_same (d : Domains) (x : Slot) (l : List Word) :
    updateD d x l x = l := by
  simp [updateD]

lemma updateD_ne (d : Domains) (x : Slot) (l : List Word) {v : Slot}
    (h : v ≠ x) : updateD d x l v = d v := by
  simp [updateD, h]

lemma neighborsOf_mem {cw : Crossword} {x z : Slot} :
    z ∈ neighborsOf cw x ↔
      z ∈ cw.vars ∧ z ≠ x ∧ (cw.overlaps x z).isSome := by
  simp [neighborsOf, List.mem_filter, and_assoc]

lemma revise_snd_ne (cw : Crossword) (d : Domains) (x y : Slot) {v : Slot}
    (h : v ≠ x) : (revise cw d x y).2 v = d v := by
  rcases hov : cw.overlaps x y with _ | ⟨i, j⟩
  · simp [revise, hov]
  · simp [revise, hov, updateD_ne d x _ h]

lemma revise_mem_some {cw : Crossword} {d : Domains} {x y : Slot} {i j : Nat}
    (hov : cw.overlaps x y = some (i, j)) {w : Word} :
    w ∈ (revise cw d x y).2 x ↔
      w ∈ d x ∧ ∃ wy ∈ d y, letterAt w i = letterAt wy j := by
  simp [revise, hov, updateD_same, List.mem_filter, List.any_eq_true]

lemma revise_sub (cw : Crossword) (d : Domains) (x y : Slot) {w : Word}
    (h : w ∈ (revise cw d x y).2 x) : w ∈ d x := by
  rcases hov : cw.overlaps x y with _ | ⟨i, j⟩
  · simp only [revise, hov] at h
    exact h
  · simp only [revise, hov, updateD_same] at h
    exact (List.mem_filter.mp h).1

lemma revise_false_pointwise {cw : Crossword} {d : Domains} {x y : Slot}
    (h : (revise cw d x y).1 = false) (v : Slot) :
    (revise cw d x y).2 v = d v := by
  rcases hov : cw.overlaps x y with _ | ⟨i, j⟩
  · simp [revise, hov]
  · rcases eq_or_ne v x with rfl | hne
    · simp only [revise, hov] at h ⊢
      simp only [bne, Bool.not_eq_false', beq_iff_eq] at h
      simp only [updateD_same]
      exact List.filter_eq_self.mpr (List.filter_length_eq_length.mp h)
    · exact revise_snd_ne cw d x y hne

lemma revise_true_shrinks {cw : Crossword} {d : Domains} {x y : Slot}
    (h : (revise cw d x y).1 = true) :
    ((revise cw d x y).2 x).length < (d x).length := by
  rcases hov : cw.overlaps x y with _ | ⟨i, j⟩
  · simp only [revise, hov] at h
    exact absurd h (by simp)
  · simp only [revise, hov, updateD_same, bne_iff_ne, ne_eq] at h ⊢
    exact lt_of_le_of_ne (List.length_filter_le _ _) h

lemma revise_keep_le (cw : Crossword) (d : Domains) (x y : Slot) (v : Slot) :
    ((revise cw d x y).2 v).length ≤ (d v).length := by
  rcases hov : cw.overlaps x y with _ | ⟨i, j⟩
  · simp [revise, hov]
  · rcases eq_or_ne v x with rfl | hne
    · simp only [revise, hov, updateD_same]
      exact List.length_filter_le _ _
    · rw [revise_snd_ne cw d x y hne]

/-- C7: after `enforce_node_consistency`, a variable's domain holds exactly
the words of its previous domain whose length equals the variable's declared
length. -/
theorem c7_node_consistency (cw : Crossword) (d : Domains) (v : Slot)
    (hv : v ∈ cw.vars) (w : Word) :
    w ∈ enforce_node_consistency cw d v ↔ w ∈ d v ∧ w.length = v.length := by
  simp [enforce_node_consistency, hv, List.mem_filter]

theorem c7_witness :
    (⟨0, 0, false, 2⟩ : Slot) ∈ (Crossword.mk [⟨0, 0, false, 2⟩]
        [['a', 'b'], ['c']] (fun _ _ => none)).vars ∧
      (['a', 'b'] ∈ enforce_node_consistency
          (Crossword.mk [⟨0, 0, false, 2⟩] [['a', 'b'], ['c']]
            (fun _ _ => none))
          (initialDomains (Crossword.mk [⟨0, 0, false, 2⟩]
            [['a', 'b'], ['c']] (fun _ _ => none))) ⟨0, 0, false, 2⟩ ↔
        ['a', 'b'] ∈ initialDomains (Crossword.mk [⟨0, 0, false, 2⟩]
          [['a', 'b'], ['c']] (fun _ _ => none)) ⟨0, 0, false, 2⟩ ∧
          (['a', 'b'] : Word).length = (⟨0, 0, false, 2⟩ : Slot).length) :=
  ⟨by decide, c7_node_consistency _ _ _ (by decide) _⟩

/-- C6: `revise(x, y)` is a no-op returning `false` when the variables do not
overlap; otherwise it removes from `x`'s domain exactly the words with no
support in `y`'s current domain at the overlap indices, touches no other
domain, and reports `true` exactly when something was removed. -/
theorem c6_revise (cw : Crossword) (d : Domains) (x y : Slot) (_hxy : x ≠ y) :
    (cw.overlaps x y = none → revise cw d x y = (false, d)) ∧
      (∀ i j, cw.overlaps x y = some (i, j) →
        (∀ w, w ∈ (revise cw d x y).2 x ↔
          w ∈ d x ∧ ∃ wy ∈ d y, letterAt w i = letterAt wy j) ∧
        (∀ z, z ≠ x → (revise cw d x y).2 z = d z) ∧
        ((revise cw d x y).1 = true ↔
          ∃ w ∈ d x, ∀ wy ∈ d y, letterAt w i ≠ letterAt wy j)) := by
  constructor
  · intro hov
    simp [revise, hov]
  · intro i j hov
    refine ⟨fun w => revise_mem_some hov, fun z hz => revise_snd_ne cw d x y hz, ?_⟩
    unfold revise
    rw [hov]
    simp only [bne_iff_ne, ne_eq]
    constructor
    · intro hlen
      have hlt : ((d x).filter (fun wx =>
          (d y).any (fun wy => letterAt wx i == letterAt wy j))).length <
          (d x).length :=
        lt_of_le_of_ne (List.length_filter_le _ _) hlen
      rcases List.length_filter_lt_length_iff_exists.mp hlt with ⟨w, hw, hnp⟩
      refine ⟨w, hw, fun wy hwy heq => hnp ?_⟩
      simp only [List.any_eq_true]
      exact ⟨wy, hwy, beq_iff_eq.mpr heq⟩
    · rintro ⟨w, hw, hno⟩ hlen
      have := List.filter_length_eq_length.mp hlen w hw
      simp only [List.any_eq_true] at this
      rcases this with ⟨wy, hwy, hbeq⟩
      exact hno wy hwy (beq_iff_eq.mp hbeq)

theorem c6_witness :
    ((⟨0, 0, false, 2⟩ : Slot) ≠ (⟨0, 1, true, 3⟩ : Slot)) ∧
      ((Crossword.mk [⟨0, 0, false, 2⟩, ⟨0, 1, true, 3⟩] []
          (fun _ _ => none)).overlaps ⟨0, 0, false, 2⟩ ⟨0, 1, true, 3⟩ = none →
        revise (Crossword.mk [⟨0, 0, false, 2⟩, ⟨0, 1, true, 3⟩] []
            (fun _ _ => none)) (fun _ => [['a', 'b']]) ⟨0, 0, false, 2⟩
            ⟨0, 1, true, 3⟩ =
          (false, fun _ => [['a', 'b']])) :=
  ⟨by decide,
    (c6_revise _ (fun _ => [['a', 'b']]) _ _ (by decide)).1⟩

/-! ### Value ordering (C9) -/

/-- The conflicts a candidate value would impose, transcribed from the
specification's description: all pairs `(n, w)` where `n` is an unassigned
neighbor of the variable and `w` is a word of `n`'s current domain whose
letter at the shared position differs from the candidate's letter at its
position. -/
def conflictPairs (cw : Crossword) (d : Domains) (a : AssignL) (var : Slot)
    (w : Word) : List (Slot × Word) :=
  (neighborsOf cw var).flatMap (fun nb =>
    if a.any (fun p => p.1 == nb) then []
    else
      match cw.overlaps var nb with
      | some (i, j) =>
        ((d nb).filter (fun wnb => letterAt w i != letterAt wnb j)).map
          (fun wnb => (nb, wnb))
      | none => [])

/-- C9: `order_domain_values` returns exactly the current domain of the
variable, ordered by ascending conflict count, and each word's conflict count
is the number of (unassigned-neighbor, mismatching-word) pairs. -/
theorem c9_order_domain_values (cw : Crossword) (d : Domains) (var : Slot)
    (a : AssignL) :
    (order_domain_values cw d var a).Perm (d var) ∧
      List.Pairwise
        (fun w1 w2 =>
          countConflicts cw d a var w1 ≤ countConflicts cw d a var w2)
        (order_domain_values cw d var a) ∧
      ∀ w, countConflicts cw d a var w = (conflictPairs cw d a var w).length := by
  refine ⟨List.perm_insertionSort _ _, ?_, ?_⟩
  · haveI : IsTotal Word
        (fun w1 w2 =>
          countConflicts cw d a var w1 ≤ countConflicts cw d a var w2) :=
      ⟨fun w1 w2 => le_total _ _⟩
    haveI : IsTrans Word
        (fun w1 w2 =>
          countConflicts cw d a var w1 ≤ countConflicts cw d a var w2) :=
      ⟨fun _ _ _ h1 h2 => le_trans h1 h2⟩
    exact List.sorted_insertionSort _ _
  · intro w
    unfold countConflicts conflictPairs
    rw [List.length_flatMap]
    refine congrArg List.sum (List.map_congr_left ?_)
    intro nb _
    simp only [Function.comp_apply]
    by_cases hnb : a.any (fun p => p.1 == nb)
    · simp [hnb]
    · simp only [hnb, if_neg, Bool.not_eq_true]
      rcases cw.overlaps var nb with _ | ⟨i, j⟩
      · simp
      · simp [List.length_map]

/-! ### Termination of the AC-3 worklist (C8) -/

lemma totalSize_congr {cw : Crossword} {d1 d2 : Domains}
    (h : ∀ v ∈ cw.vars, d1 v = d2 v) : totalSize cw d1 = totalSize cw d2 := by
  unfold totalSize
  exact congrArg List.sum (List.map_congr_left (fun v hv => by rw [h v hv]))

lemma map_sum_lt {f g : Slot → Nat} (hle : ∀ v, f v ≤ g v) :
    ∀ {ℓ : List Slot} {x : Slot}, x ∈ ℓ → f x < g x →
      (ℓ.map f).sum < (ℓ.map g).sum := by
  intro ℓ
  induction ℓ with
  | nil => intro x hx; exact absurd hx (List.not_mem_nil x)
  | cons h t ih =>
    intro x hx hfx
    rcases List.mem_cons.mp hx with rfl | hxt
    · have ht : (t.map f).sum ≤ (t.map g).sum :=
        List.sum_le_sum (fun v _ => hle v)
      simpa using Nat.add_lt_add_of_lt_of_le hfx ht
    · have hh : f h ≤ g h := hle h
      have := ih hxt hfx
      simpa using Nat.add_lt_add_of_le_of_lt hh this

lemma sum_map_one {α : Type} : ∀ (l : List α), (l.map (fun _ => (1 : Nat))).sum = l.length := by
  intro l
  induction l with
  | nil => rfl
  | cons h t ih => simp [ih]; omega

lemma enq_weight_le (cw : Crossword) (x y : Slot) :
    ((((neighborsOf cw x).filter (fun z => decide (z ≠ y))).map
        (fun z => (z, x))).map (arcWeight cw)).sum ≤ cw.vars.length := by
  rw [List.map_map]
  have hcong : (((neighborsOf cw x).filter (fun z => decide (z ≠ y))).map
      (arcWeight cw ∘ fun z => (z, x))) =
      (((neighborsOf cw x).filter (fun z => decide (z ≠ y))).map
        (fun _ => (1 : Nat))) := by
    refine List.map_congr_left ?_
    intro z hz
    have hzn : z ∈ neighborsOf cw x := List.mem_of_mem_filter hz
    have hzv : z ∈ cw.vars := (neighborsOf_mem.mp hzn).1
    simp [arcWeight, hzv]
  rw [hcong, sum_map_one]
  calc ((neighborsOf cw x).filter (fun z => decide (z ≠ y))).length
      ≤ (neighborsOf cw x).length := List.length_filter_le _ _
    _ ≤ cw.vars.length := List.length_filter_le _ _

lemma arcWeight_pos (cw : Crossword) (p : Slot × Slot) : 1 ≤ arcWeight cw p := by
  unfold arcWeight
  split <;> omega

lemma ac3Loop_total (cw : Crossword) :
    ∀ fuel (q : List (Slot × Slot)) (d : Domains), ac3Measure cw d q < fuel →
      (ac3Loop cw fuel q d).isSome := by
  intro fuel
  induction fuel with
  | zero => intro q d h; exact absurd h (Nat.not_lt_zero _)
  | succ n ih =>
    intro q d h
    match q with
    | [] => simp [ac3Loop]
    | (x, y) :: rest =>
      rw [ac3Loop]
      by_cases hrev : (revise cw d x y).1
      · simp only [hrev, if_true]
        by_cases hemp : ((revise cw d x y).2 x).isEmpty
        · simp [hemp]
        · simp only [hemp, if_false, Bool.false_eq_true]
          apply ih
          have hK := enq_weight_le cw x y
          have hmq : ac3Measure cw d ((x, y) :: rest) =
              arcWeight cw (x, y) + (rest.map (arcWeight cw)).sum +
                totalSize cw d * (cw.vars.length + 1) := by
            simp [ac3Measure]
          have hmq' : ac3Measure cw ((revise cw d x y).2)
              (rest ++ (((neighborsOf cw x).filter (fun z => decide (z ≠ y))).map
                (fun z => (z, x)))) =
              (rest.map (arcWeight cw)).sum +
                ((((neighborsOf cw x).filter (fun z => decide (z ≠ y))).map
                  (fun z => (z, x))).map (arcWeight cw)).sum +
                totalSize cw ((revise cw d x y).2) * (cw.vars.length + 1) := by
            simp [ac3Measure, List.map_append, List.sum_append]
          by_cases hx : x ∈ cw.vars
          · have hT : totalSize cw ((revise cw d x y).2) < totalSize cw d :=
              map_sum_lt (fun v => revise_keep_le cw d x y v) hx
                (revise_true_shrinks hrev)
            have hw : arcWeight cw (x, y) = 1 := by simp [arcWeight, hx]
            have hmul : (totalSize cw ((revise cw d x y).2) + 1) *
                (cw.vars.length + 1) ≤ totalSize cw d * (cw.vars.length + 1) :=
              Nat.mul_le_mul_right _ hT
            rw [Nat.add_mul, one_mul] at hmul
            rw [hmq, hw] at h
            rw [hmq']
            omega
          · have hT : totalSize cw ((revise cw d x y).2) = totalSize cw d :=
              totalSize_congr (fun v hv =>
                revise_snd_ne cw d x y (fun hvx => hx (hvx ▸ hv)))
            have hw : arcWeight cw (x, y) = cw.vars.length + 2 := by
              simp [arcWeight, hx]
            rw [hmq, hw] at h
            rw [hmq', hT]
            omega
      · simp only [hrev, Bool.false_eq_true, if_false]
        apply ih
        have hT : totalSize cw ((revise cw d x y).2) = totalSize cw d :=
          totalSize_congr (fun v _ =>
            revise_false_pointwise (Bool.not_eq_true _ ▸ hrev) v)
        have hw := arcWeight_pos cw (x, y)
        have hmq : ac3Measure cw d ((x, y) :: rest) =
            arcWeight cw (x, y) + (rest.map (arcWeight cw)).sum +
              totalSize cw d * (cw.vars.length + 1) := by
          simp [ac3Measure]
        have hmq' : ac3Measure cw ((revise cw d x y).2) rest =
            (rest.map (arcWeight cw)).sum +
              totalSize cw ((revise cw d x y).2) * (cw.vars.length + 1) := by
          simp [ac3Measure]
        rw [hmq] at h
        rw [hmq', hT]
        omega

/-- C8: the AC-3 worklist loop terminates on every input: for any puzzle,
any domain store and any initial arc queue, the explicit measure
`ac3Measure` bounds the number of iterations, so running the loop with that
much fuel always completes (returns a result rather than running out). -/
theorem c8_ac3_terminates (cw : Crossword) (d : Domains)
    (q : List (Slot × Slot)) :
    (ac3Loop cw (ac3Measure cw d q + 1) q d).isSome :=
  ac3Loop_total cw _ q d (Nat.lt_succ_self _)

/-! ### Concrete puzzles used by witnesses and counterexamples -/

/-- A length-2 across slot. -/
def slotA : Slot := ⟨0, 0, false, 2⟩

/-- A length-3 down slot crossing `slotA` at the latter's second letter. -/
def slotB : Slot := ⟨0, 1, true, 3⟩

/-- Overlap relation of the two crossing slots above. -/
def ovWit : Slot → Slot → Option (Nat × Nat) := fun x y =>
  if x = slotA ∧ y = slotB then some (1, 0)
  else if x = slotB ∧ y = slotA then some (0, 1) else none

/-- Crossing puzzle whose vocabulary admits no agreeing crossing: propagation
empties a domain. -/
def cwUnsat : Crossword :=
  ⟨[slotA, slotB], [['a', 'b'], ['x', 'y', 'z']], ovWit⟩

/-- Crossing puzzle with a valid solution (`ab` across, `bcd` down). -/
def cwPair : Crossword :=
  ⟨[slotA, slotB], [['a', 'b'], ['b', 'c', 'd']], ovWit⟩

/-- One-variable puzzle with a fitting word. -/
def cwSingle : Crossword := ⟨[slotA], [['a', 'b']], fun _ _ => none⟩

/-- One isolated variable and an empty vocabulary. -/
def cwIsolated : Crossword := ⟨[slotA], [], fun _ _ => none⟩

/-- The trivial puzzle with no variables. -/
def cwNoVars : Crossword := ⟨[], [], fun _ _ => none⟩

/-- The all-empty domain store. -/
def emptyDoms : Domains := fun _ => []

/-! ### Outcomes of the AC-3 run (C3, and groundwork for C1, C4) -/

lemma defaultArcs_src {cw : Crossword} {p : Slot × Slot}
    (h : p ∈ defaultArcs cw) : p.1 ∈ cw.vars := by
  unfold defaultArcs at h
  rcases List.mem_flatMap.mp h with ⟨x, hx, hp⟩
  rcases List.mem_map.mp hp with ⟨y, _, rfl⟩
  exact hx

lemma ac3_eq_loop (cw : Crossword) (d : Domains)
    (arcs : Option (List (Slot × Slot))) :
    ∃ b d2,
      ac3Loop cw (ac3Measure cw d (arcs.getD (defaultArcs cw)) + 1)
          (arcs.getD (defaultArcs cw)) d = some (b, d2) ∧
        ac3 cw d arcs = (b, d2) := by
  have h := ac3Loop_total cw _ (arcs.getD (defaultArcs cw)) d (Nat.lt_succ_self _)
  rcases ho : ac3Loop cw (ac3Measure cw d (arcs.getD (defaultArcs cw)) + 1)
      (arcs.getD (defaultArcs cw)) d with _ | ⟨b, d2⟩
  · rw [ho] at h
    exact absurd h (by simp)
  · exact ⟨b, d2, rfl, by simp [ac3, ho]⟩

lemma ac3Loop_false_empty (cw : Crossword) :
    ∀ fuel (q : List (Slot × Slot)) (d d2 : Domains),
      (∀ p ∈ q, p.1 ∈ cw.vars) →
      ac3Loop cw fuel q d = some (false, d2) →
      ∃ v ∈ cw.vars, d2 v = [] := by
  intro fuel
  induction fuel with
  | zero => intro q d d2 _ h; exact absurd h (by simp [ac3Loop])
  | succ n ih =>
    intro q d d2 hq h
    match q with
    | [] =>
      rw [ac3Loop] at h
      simp at h
    | (x, y) :: rest =>
      rw [ac3Loop] at h
      by_cases hrev : (revise cw d x y).1
      · simp only [hrev, if_true] at h
        by_cases hemp : ((revise cw d x y).2 x).isEmpty
        · simp only [hemp, if_true, Option.some_inj, Prod.mk.injEq] at h
          refine ⟨x, hq (x, y) (List.mem_cons_self _ _), ?_⟩
          rw [← h.2]
          exact List.isEmpty_iff.mp hemp
        · simp only [hemp, Bool.false_eq_true, if_false] at h
          refine ih _ _ _ ?_ h
          intro p hp
          rcases List.mem_append.mp hp with hp | hp
          · exact hq p (List.mem_cons_of_mem _ hp)
          · rcases List.mem_map.mp hp with ⟨z, hz, rfl⟩
            exact (neighborsOf_mem.mp (List.mem_of_mem_filter hz)).1
      · simp only [hrev, Bool.false_eq_true, if_false] at h
        exact ih _ _ _ (fun p hp => hq p (List.mem_cons_of_mem _ hp)) h

lemma ac3Loop_true_nonempty (cw : Crossword) :
    ∀ fuel (q : List (Slot × Slot)) (d d2 : Domains),
      (∀ v ∈ cw.vars, d v ≠ []) →
      ac3Loop cw fuel q d = some (true, d2) →
      ∀ v ∈ cw.vars, d2 v ≠ [] := by
  intro fuel
  induction fuel with
  | zero => intro q d d2 _ h; exact absurd h (by simp [ac3Loop])
  | succ n ih =>
    intro q d d2 hd h
    match q with
    | [] =>
      rw [ac3Loop] at h
      simp only [Option.some_inj, Prod.mk.injEq] at h
      rw [← h.2]
      exact hd
    | (x, y) :: rest =>
      rw [ac3Loop] at h
      by_cases hrev : (revise cw d x y).1
      · simp only [hrev, if_true] at h
        by_cases hemp : ((revise cw d x y).2 x).isEmpty
        · simp only [hemp, if_true, Option.some_inj, Prod.mk.injEq] at h
          exact absurd h.1 (by simp)
        · simp only [hemp, Bool.false_eq_true, if_false] at h
          refine ih _ _ _ ?_ h
          intro v hv
          rcases eq_or_ne v x with rfl | hne
          · intro hnil
            rw [hnil] at hemp
            exact hemp rfl
          · rw [revise_snd_ne cw d x y hne]
            exact hd v hv
      · simp only [hrev, Bool.false_eq_true, if_false] at h
        refine ih _ _ _ ?_ h
        intro v hv
        rw [revise_false_pointwise (Bool.not_eq_true _ ▸ hrev) v]
        exact hd v hv

/-- C3 as stated fails: on a puzzle with one neighbor-less variable whose
domain is already empty, `ac3` (default queue) returns `True` although that
domain is empty when the queue drains. -/
theorem c3_counterexample :
    (ac3 cwIsolated emptyDoms none).1 = true ∧
      ¬ (∀ v ∈ cwIsolated.vars, (ac3 cwIsolated emptyDoms none).2 v ≠ []) := by
  decide

/-- C3 amended: provided every variable's domain is non-empty when `ac3`
starts (e.g. it only became empty during propagation), `ac3` with the default
queue returns `True` iff every variable's domain is non-empty when it
finishes; equivalently it returns `False` exactly when propagation emptied a
domain. -/
theorem c3_amended (cw : Crossword) (d : Domains)
    (h : ∀ v ∈ cw.vars, d v ≠ []) :
    ((ac3 cw d none).1 = true ↔ ∀ v ∈ cw.vars, (ac3 cw d none).2 v ≠ []) := by
  rcases ac3_eq_loop cw d none with ⟨b, d2, hloop, heq⟩
  rw [heq]
  cases b with
  | true =>
    simp only [true_iff]
    exact ac3Loop_true_nonempty cw _ _ _ _ h hloop
  | false =>
    simp only [Bool.false_eq_true, false_iff, not_forall]
    rcases ac3Loop_false_empty cw _ _ _ _
        (fun p hp => defaultArcs_src (by simpa using hp)) hloop with ⟨v, hv, hnil⟩
    exact ⟨v, hv, fun hne => hne hnil⟩

theorem c3_witness :
    (∀ v ∈ cwSingle.vars, initialDomains cwSingle v ≠ []) ∧
      ((ac3 cwSingle (initialDomains cwSingle) none).1 = true ↔
        ∀ v ∈ cwSingle.vars,
          (ac3 cwSingle (initialDomains cwSingle) none).2 v ≠ []) :=
  ⟨by decide, c3_amended cwSingle (initialDomains cwSingle) (by decide)⟩

/-! ### Variable selection (groundwork for C1, C5, C2) -/

lemma select_pick_le (cw : Crossword) (d : Domains) :
    ∀ (us : List Slot) (u v : Slot), (v = u ∨ v ∈ us) →
      (d (us.foldl
        (fun best v =>
          if (d v).length < (d best).length ∨
              ((d v).length = (d best).length ∧
                (neighborsOf cw best).length < (neighborsOf cw v).length)
          then v else best) u)).length ≤ (d v).length := by
  intro us
  induction us with
  | nil =>
    rintro u v (rfl | hv)
    · exact le_rfl
    · cases hv
  | cons w us ih =>
    intro u v hv
    have hstep : ∀ u' w' : Slot,
        (d (if (d w').length < (d u').length ∨
            ((d w').length = (d u').length ∧
              (neighborsOf cw u').length < (neighborsOf cw w').length)
          then w' else u')).length ≤ (d u').length ∧
        (d (if (d w').length < (d u').length ∨
            ((d w').length = (d u').length ∧
              (neighborsOf cw u').length < (neighborsOf cw w').length)
          then w' else u')).length ≤ (d w').length := by
      intro u' w'
      split_ifs with hc
      · rcases hc with hlt | ⟨heq, _⟩
        · exact ⟨le_of_lt hlt, le_rfl⟩
        · exact ⟨le_of_eq heq, le_rfl⟩
      · push_neg at hc
        exact ⟨le_rfl, hc.1⟩
    rcases hv with rfl | hv
    · calc (d (List.foldl _ _ us)).length
          ≤ (d (if (d w).length < (d v).length ∨
              ((d w).length = (d v).length ∧
                (neighborsOf cw v).length < (neighborsOf cw w).length)
            then w else v)).length := ih _ _ (Or.inl rfl)
        _ ≤ (d v).length := (hstep v w).1
    · rcases List.mem_cons.mp hv with rfl | hv
      · calc (d (List.foldl _ _ us)).length
            ≤ (d (if (d v).length < (d u).length ∨
                ((d v).length = (d u).length ∧
                  (neighborsOf cw u).length < (neighborsOf cw v).length)
              then v else u)).length := ih _ _ (Or.inl rfl)
          _ ≤ (d v).length := (hstep u v).2
      · exact ih _ _ (Or.inr hv)

lemma foldl_pick_mem (cw : Crossword) (d : Domains) :
    ∀ (us : List Slot) (u : Slot),
      us.foldl
        (fun best v =>
          if (d v).length < (d best).length ∨
              ((d v).length = (d best).length ∧
                (neighborsOf cw best).length < (neighborsOf cw v).length)
          then v else best) u = u ∨
      us.foldl
        (fun best v =>
          if (d v).length < (d best).length ∨
              ((d v).length = (d best).length ∧
                (neighborsOf cw best).length < (neighborsOf cw v).length)
          then v else best) u ∈ us := by
  intro us
  induction us with
  | nil => intro u; exact Or.inl rfl
  | cons w us ih =>
    intro u
    rcases ih (if (d w).length < (d u).length ∨
        ((d w).length = (d u).length ∧
          (neighborsOf cw u).length < (neighborsOf cw w).length)
      then w else u) with h | h
    · rw [List.foldl_cons, h]
      split_ifs with hc
      · exact Or.inr (List.mem_cons_self _ _)
      · exact Or.inl rfl
    · exact Or.inr (List.mem_cons_of_mem _ (by rw [List.foldl_cons]; exact h))

lemma select_some_spec {cw : Crossword} {d : Domains} {a : AssignL} {var : Slot}
    (h : select_unassigned_variable cw d a = some var) :
    var ∈ cw.vars ∧ a.any (fun p => p.1 == var) = false ∧
      ∀ v ∈ cw.vars, a.any (fun p => p.1 == v) = false →
        (d var).length ≤ (d v).length := by
  unfold select_unassigned_variable at h
  rcases hf : cw.vars.filter (fun v => !a.any (fun p => p.1 == v))
    with _ | ⟨u, us⟩ <;> rw [hf] at h
  · cases h
  · injection h with h
    have hvmem : var = u ∨ var ∈ us := by
      rw [← h]
      exact foldl_pick_mem cw d us u
    have hcons : var ∈ u :: us := by
      rcases hvmem with rfl | hm
      · exact List.mem_cons_self _ _
      · exact List.mem_cons_of_mem _ hm
    have hvfil : var ∈ cw.vars.filter (fun v => !a.any (fun p => p.1 == v)) := by
      rw [hf]; exact hcons
    have hvf := List.mem_filter.mp hvfil
    refine ⟨hvf.1, by simpa using hvf.2, ?_⟩
    intro v hv hun
    have hvfil' : v ∈ cw.vars.filter (fun v => !a.any (fun p => p.1 == v)) :=
      List.mem_filter.mpr ⟨hv, by simp [hun]⟩
    rw [hf] at hvfil'
    rcases List.mem_cons.mp hvfil' with rfl | hm
    · rw [← h]; exact select_pick_le cw d us v v (Or.inl rfl)
    · rw [← h]; exact select_pick_le cw d us u v (Or.inr hm)

lemma select_unassigned_of_mem {cw : Crossword} {d : Domains} {a : AssignL}
    {var : Slot} (h : select_unassigned_variable cw d a = some var) :
    var ∉ a.map Prod.fst := by
  intro hmem
  have hfalse := (select_some_spec h).2.1
  rcases List.mem_map.mp hmem with ⟨p, hp, hfst⟩
  have htrue : a.any (fun p => p.1 == var) = true :=
    List.any_eq_true.mpr ⟨p, hp, by rw [hfst]; exact beq_self_eq_true var⟩
  rw [htrue] at hfalse
  cases hfalse

/-! ### Propagation failure and `solve` (C1) -/

lemma backtrack_empty_domain (cw : Crossword) (d : Domains) (n : Nat)
    (hne : cw.vars ≠ []) (hempty : ∃ v ∈ cw.vars, d v = []) :
    backtrack cw (n + 1) d [] = ⟨none, [], d, 1⟩ := by
  obtain ⟨vE, hvE, hdE⟩ := hempty
  have hcomp : assignment_complete cw [] = false := by
    rw [Bool.eq_false_iff]
    intro hc
    unfold assignment_complete at hc
    rw [Bool.and_eq_true, List.all_eq_true] at hc
    have := hc.1 vE hvE
    simp at this
  rcases hsel : select_unassigned_variable cw d [] with _ | sel
  · exfalso
    unfold select_unassigned_variable at hsel
    obtain ⟨u, us, huv⟩ := List.exists_cons_of_ne_nil hne
    have hfil : cw.vars.filter
        (fun v => !([] : AssignL).any (fun p => p.1 == v)) = cw.vars := by
      simp
    rw [hfil, huv] at hsel
    cases hsel
  · have hspec := select_some_spec hsel
    have hsel0 : (d sel).length ≤ (d vE).length :=
      hspec.2.2 vE hvE (by simp)
    rw [hdE] at hsel0
    have hdsel : d sel = [] :=
      List.eq_nil_of_length_eq_zero (Nat.le_zero.mp hsel0)
    have hord : order_domain_values cw d sel [] = [] := by
      unfold order_domain_values
      rw [hdsel]
      rfl
    rw [backtrack]
    simp only [hcomp, Bool.false_eq_true, if_false, hsel, hord]
    rfl

/-- C1 as stated fails on the code: `solve` ignores the Boolean returned by
`ac3` and always invokes `backtrack` — on a puzzle where propagation empties
a domain, `ac3` returns `False` yet the search is still entered (one
`backtrack` invocation is made). -/
theorem c1_counterexample :
    (ac3 cwUnsat (enforce_node_consistency cwUnsat (initialDomains cwUnsat))
        none).1 = false ∧
      (solveFull cwUnsat).2 ≠ 0 := by
  decide

/-- C1 amended: when `ac3` (as run by `solve` after node consistency) returns
unsatisfiable, `solve` still invokes the backtracking search — exactly once —
but that invocation immediately fails (the selected variable has an empty
domain), so the overall result is still the "no solution" signal `none`. -/
theorem c1_amended (cw : Crossword)
    (h : (ac3 cw (enforce_node_consistency cw (initialDomains cw)) none).1 =
      false) :
    solve cw = none ∧ (solveFull cw).2 = 1 := by
  rcases ac3_eq_loop cw (enforce_node_consistency cw (initialDomains cw)) none
    with ⟨b, d2, hloop, heq⟩
  have hb : b = false := by rw [heq] at h; exact h
  subst hb
  have hempty : ∃ v ∈ cw.vars, d2 v = [] :=
    ac3Loop_false_empty cw _ _ _ _
      (fun p hp => defaultArcs_src (by simpa using hp)) hloop
  have hne : cw.vars ≠ [] := by
    rcases hempty with ⟨v, hv, _⟩
    exact List.ne_nil_of_mem hv
  have hbt : backtrack cw (cw.vars.length + 1) d2 [] = ⟨none, [], d2, 1⟩ :=
    backtrack_empty_domain cw d2 _ hne hempty
  have hsf : solveFull cw =
      ((backtrack cw (cw.vars.length + 1)
          (ac3 cw (enforce_node_consistency cw (initialDomains cw)) none).2
          []).res,
        (backtrack cw (cw.vars.length + 1)
          (ac3 cw (enforce_node_consistency cw (initialDomains cw)) none).2
          []).calls) := rfl
  rw [heq] at hsf
  simp only at hsf
  rw [hbt] at hsf
  exact ⟨by rw [solve, hsf], by rw [hsf]⟩

theorem c1_witness :
    (ac3 cwUnsat (enforce_node_consistency cwUnsat (initialDomains cwUnsat))
        none).1 = false ∧
      (solve cwUnsat = none ∧ (solveFull cwUnsat).2 = 1) :=
  ⟨by decide, c1_amended cwUnsat (by decide)⟩

/-! ### Backtracking is reversible and leak-free (C5) -/

lemma assignSet_not_mem {a : AssignL} {var : Slot}
    (h : var ∉ a.map Prod.fst) (w : Word) :
    assignSet a var w = a ++ [(var, w)] := by
  have hany : a.any (fun p => p.1 == var) = false := by
    rw [← Bool.not_eq_true, List.any_eq_true]
    rintro ⟨p, hp, hbeq⟩
    exact h (List.mem_map.mpr ⟨p, hp, beq_iff_eq.mp hbeq⟩)
  simp [assignSet, hany]

lemma assignDel_append {a : AssignL} {var : Slot}
    (h : var ∉ a.map Prod.fst) (w : Word) :
    assignDel (a ++ [(var, w)]) var = a := by
  unfold assignDel
  rw [List.filter_append]
  have h2 : ([(var, w)] : AssignL).filter (fun p => p.1 != var) = [] := by
    simp
  have h1 : a.filter (fun p => p.1 != var) = a := by
    apply List.filter_eq_self.mpr
    intro p hp
    simp only [bne_iff_ne, ne_eq, decide_eq_true_eq]
    intro hc
    exact h (List.mem_map.mpr ⟨p, hp, hc⟩)
  rw [h1, h2, List.append_nil]

lemma tryValues_frame (cw : Crossword) (bt : Domains → AssignL → BtOut)
    (var : Slot)
    (Hdoms : ∀ d b, (bt d b).doms = d)
    (Hnone : ∀ d b, (bt d b).res = none → (bt d b).assign = b)
    (Hne : ∀ d b r, (bt d b).res = some r → b ≠ [] → r ≠ []) :
    ∀ (ws : List Word) (d : Domains) (a : AssignL), var ∉ a.map Prod.fst →
      ((tryValues cw bt var ws d a).res = none →
        (tryValues cw bt var ws d a).assign = a) ∧
      (tryValues cw bt var ws d a).doms = d ∧
      (∀ r, (tryValues cw bt var ws d a).res = some r → r ≠ []) := by
  intro ws
  induction ws with
  | nil =>
    intro d a _
    exact ⟨fun _ => rfl, rfl, fun r hr => by cases hr⟩
  | cons w ws ih =>
    intro d a ha
    have ha1 : assignSet a var w = a ++ [(var, w)] := assignSet_not_mem ha w
    have hne1 : assignSet a var w ≠ [] := by
      rw [ha1]
      exact List.append_ne_nil_of_right_ne_nil a (by simp)
    have hdel : assignDel (assignSet a var w) var = a := by
      rw [ha1]
      exact assignDel_append ha w
    by_cases hcons : consistent cw (assignSet a var w) = true
    · rcases hores : (bt d (assignSet a var w)).res with _ | r
      · have hres : (tryValues cw bt var (w :: ws) d a).res =
            (tryValues cw bt var ws d a).res := by
          rw [tryValues]
          simp only [hcons, if_true, hores, Hdoms d (assignSet a var w),
            Hnone d (assignSet a var w) hores, hdel]
        have hassign : (tryValues cw bt var (w :: ws) d a).assign =
            (tryValues cw bt var ws d a).assign := by
          rw [tryValues]
          simp only [hcons, if_true, hores, Hdoms d (assignSet a var w),
            Hnone d (assignSet a var w) hores, hdel]
        have hdoms : (tryValues cw bt var (w :: ws) d a).doms =
            (tryValues cw bt var ws d a).doms := by
          rw [tryValues]
          simp only [hcons, if_true, hores, Hdoms d (assignSet a var w),
            Hnone d (assignSet a var w) hores, hdel]
        rw [hres, hassign, hdoms]
        exact ih d a ha
      · have hrne : r ≠ [] := Hne d (assignSet a var w) r hores hne1
        have hremp : r.isEmpty = false := by
          rw [← Bool.not_eq_true, List.isEmpty_iff]
          exact hrne
        have hres : (tryValues cw bt var (w :: ws) d a).res = some r := by
          rw [tryValues]
          simp only [hcons, if_true, hores, hremp, Bool.false_eq_true, if_false]
        have hdoms : (tryValues cw bt var (w :: ws) d a).doms = d := by
          rw [tryValues]
          simp only [hcons, if_true, hores, hremp, Bool.false_eq_true, if_false]
          exact Hdoms d (assignSet a var w)
        rw [hres, hdoms]
        refine ⟨?_, rfl, ?_⟩
        · intro hc
          cases hc
        · intro r' hr'
          injection hr' with hr'
          rw [← hr']
          exact hrne
    · have hval : tryValues cw bt var (w :: ws) d a =
          tryValues cw bt var ws d a := by
        rw [tryValues]
        simp only [hcons, Bool.false_eq_true, if_false, hdel]
      rw [hval]
      exact ih d a ha

lemma backtrack_frame (cw : Crossword) :
    ∀ (fuel : Nat) (d : Domains) (a : AssignL),
      ((backtrack cw fuel d a).res = none →
        (backtrack cw fuel d a).assign = a) ∧
      (backtrack cw fuel d a).doms = d ∧
      (∀ r, (backtrack cw fuel d a).res = some r → a ≠ [] → r ≠ []) := by
  intro fuel
  induction fuel with
  | zero =>
    intro d a
    exact ⟨fun _ => rfl, rfl, fun r hr => by cases hr⟩
  | succ n ih =>
    intro d a
    by_cases hcomp : assignment_complete cw a = true
    · have hval : backtrack cw (n + 1) d a = ⟨some a, a, d, 1⟩ := by
        rw [backtrack]
        simp only [hcomp, if_true]
      rw [hval]
      refine ⟨?_, rfl, ?_⟩
      · intro hc
        cases hc
      · intro r hr hne
        injection hr with hr
        rw [← hr]
        exact hne
    · rcases hsel : select_unassigned_variable cw d a with _ | var
      · have hval : backtrack cw (n + 1) d a = ⟨none, a, d, 1⟩ := by
          rw [backtrack]
          simp only [hcomp, Bool.false_eq_true, if_false, hsel]
        rw [hval]
        exact ⟨fun _ => rfl, rfl, fun r hr => by cases hr⟩
      · have hval : backtrack cw (n + 1) d a =
            ⟨(tryValues cw (backtrack cw n) var
                (order_domain_values cw d var a) d a).res,
              (tryValues cw (backtrack cw n) var
                (order_domain_values cw d var a) d a).assign,
              (tryValues cw (backtrack cw n) var
                (order_domain_values cw d var a) d a).doms,
              1 + (tryValues cw (backtrack cw n) var
                (order_domain_values cw d var a) d a).calls⟩ := by
          rw [backtrack]
          simp only [hcomp, Bool.false_eq_true, if_false, hsel]
        have hvar : var ∉ a.map Prod.fst := select_unassigned_of_mem hsel
        have ht := tryValues_frame cw (backtrack cw n) var
          (fun d b => (ih d b).2.1)
          (fun d b => (ih d b).1)
          (fun d b r hr hneb => (ih d b).2.2 r hr hneb)
          (order_domain_values cw d var a) d a hvar
        rw [hval]
        exact ⟨fun h => ht.1 h, ht.2.1, fun r hr _ => ht.2.2 r hr⟩

/-- C5: backtracking is reversible and leak-free — whenever a `backtrack`
call returns failure (`none`), the assignment dict is exactly what it was at
entry, and the domain store is untouched by the whole search (the embedding
threads the store through `backtrack`, `consistent`,
`order_domain_values` and `select_unassigned_variable`; none of them writes
it). -/
theorem c5_frame (cw : Crossword) (fuel : Nat) (d : Domains) (a : AssignL)
    (h : (backtrack cw fuel d a).res = none) :
    (backtrack cw fuel d a).assign = a ∧ (backtrack cw fuel d a).doms = d :=
  ⟨(backtrack_frame cw fuel d a).1 h, (backtrack_frame cw fuel d a).2.1⟩

theorem c5_witness :
    (backtrack cwIsolated 1 emptyDoms []).res = none ∧
      ((backtrack cwIsolated 1 emptyDoms []).assign = [] ∧
        (backtrack cwIsolated 1 emptyDoms []).doms = emptyDoms) :=
  ⟨by decide, c5_frame cwIsolated 1 emptyDoms [] (by decide)⟩

/-! ### Soundness of the result of `solve` (C2) -/

lemma consistent_nil (cw : Crossword) : consistent cw [] = true := by
  simp [consistent]

/-- The invariant carried by every assignment the search can return:
complete, consistent, and with pairwise-distinct keys. -/
def GoodAssign (cw : Crossword) (r : AssignL) : Prop :=
  assignment_complete cw r = true ∧ consistent cw r = true ∧
    (r.map Prod.fst).Nodup

lemma keys_nodup_append {a : AssignL} {var : Slot}
    (h : var ∉ a.map Prod.fst) (hnd : (a.map Prod.fst).Nodup) (w : Word) :
    ((a ++ [(var, w)]).map Prod.fst).Nodup := by
  rw [List.map_append]
  rw [List.nodup_append]
  refine ⟨hnd, by simp, ?_⟩
  intro x hx
  simp only [List.map_cons, List.map_nil, List.mem_cons, List.not_mem_nil,
    or_false]
  intro hxv
  exact h (hxv ▸ hx)

lemma lookup_eq_of_mem {a : AssignL} (hnd : (a.map Prod.fst).Nodup)
    {v : Slot} {w : Word} (h : (v, w) ∈ a) : a.lookup v = some w := by
  induction a with
  | nil => cases h
  | cons p t ih =>
    rw [List.map_cons, List.nodup_cons] at hnd
    rcases List.mem_cons.mp h with rfl | ht
    · simp [List.lookup]
    · have hk : (v == p.1) = false := by
        rw [beq_eq_false_iff_ne, ne_eq]
        intro he
        exact hnd.1 (he ▸ List.mem_map.mpr ⟨(v, w), ht, rfl⟩)
      simp only [List.lookup, hk]
      exact ih hnd.2 ht

lemma consistent_spec {cw : Crossword} {a : AssignL}
    (h : consistent cw a = true) :
    (a.map Prod.snd).Nodup ∧
      (∀ p ∈ a, p.2.length = p.1.length) ∧
      (∀ p ∈ a, ∀ nb ∈ neighborsOf cw p.1, ∀ wnb, a.lookup nb = some wnb →
        ∀ i j, cw.overlaps p.1 nb = some (i, j) →
          letterAt p.2 i = letterAt wnb j) := by
  unfold consistent at h
  rw [Bool.and_eq_true, Bool.and_eq_true] at h
  obtain ⟨⟨h1, h2⟩, h3⟩ := h
  refine ⟨of_decide_eq_true h1, ?_, ?_⟩
  · intro p hp
    exact beq_iff_eq.mp (List.all_eq_true.mp h2 p hp)
  · intro p hp nb hnb wnb hlk i j hov
    have hh := List.all_eq_true.mp (List.all_eq_true.mp h3 p hp) nb hnb
    rw [hlk, hov] at hh
    exact beq_iff_eq.mp hh

lemma assignment_complete_keys {cw : Crossword} {a : AssignL}
    (h : assignment_complete cw a = true) :
    ∀ v, v ∈ a.map Prod.fst ↔ v ∈ cw.vars := by
  unfold assignment_complete at h
  rw [Bool.and_eq_true, List.all_eq_true, List.all_eq_true] at h
  intro v
  constructor
  · intro hv
    rcases List.mem_map.mp hv with ⟨p, hp, rfl⟩
    exact List.elem_iff.mp (h.2 p hp)
  · intro hv
    rcases List.any_eq_true.mp (h.1 v hv) with ⟨p, hp, hbeq⟩
    exact List.mem_map.mpr ⟨p, hp, beq_iff_eq.mp hbeq⟩

lemma tryValues_sound (cw : Crossword) (bt : Domains → AssignL → BtOut)
    (var : Slot)
    (Hbt : ∀ d b r, (b.map Prod.fst).Nodup → consistent cw b = true →
      (bt d b).res = some r → GoodAssign cw r)
    (Hdoms : ∀ d b, (bt d b).doms = d)
    (Hnone : ∀ d b, (bt d b).res = none → (bt d b).assign = b)
    (Hne : ∀ d b r, (bt d b).res = some r → b ≠ [] → r ≠ []) :
    ∀ (ws : List Word) (d : Domains) (a : AssignL), var ∉ a.map Prod.fst →
      (a.map Prod.fst).Nodup → consistent cw a = true →
      ∀ r, (tryValues cw bt var ws d a).res = some r → GoodAssign cw r := by
  intro ws
  induction ws with
  | nil => intro d a _ _ _ r hr; cases hr
  | cons w ws ih =>
    intro d a ha hnd hca r hr
    have ha1 : assignSet a var w = a ++ [(var, w)] := assignSet_not_mem ha w
    have hne1 : assignSet a var w ≠ [] := by
      rw [ha1]
      exact List.append_ne_nil_of_right_ne_nil a (by simp)
    have hdel : assignDel (assignSet a var w) var = a := by
      rw [ha1]
      exact assignDel_append ha w
    by_cases hcons : consistent cw (assignSet a var w) = true
    · rcases hores : (bt d (assignSet a var w)).res with _ | r0
      · have hres : (tryValues cw bt var (w :: ws) d a).res =
            (tryValues cw bt var ws d a).res := by
          rw [tryValues]
          simp only [hcons, if_true, hores, Hdoms d (assignSet a var w),
            Hnone d (assignSet a var w) hores, hdel]
        rw [hres] at hr
        exact ih d a ha hnd hca r hr
      · have hrne : r0 ≠ [] := Hne d (assignSet a var w) r0 hores hne1
        have hremp : r0.isEmpty = false := by
          rw [← Bool.not_eq_true, List.isEmpty_iff]
          exact hrne
        have hres : (tryValues cw bt var (w :: ws) d a).res = some r0 := by
          rw [tryValues]
          simp only [hcons, if_true, hores, hremp, Bool.false_eq_true, if_false]
        rw [hres] at hr
        injection hr with hr
        rw [← hr]
        refine Hbt d (assignSet a var w) r0 ?_ hcons hores
        rw [ha1]
        exact keys_nodup_append ha hnd w
    · have hval : tryValues cw bt var (w :: ws) d a =
          tryValues cw bt var ws d a := by
        rw [tryValues]
        simp only [hcons, Bool.false_eq_true, if_false, hdel]
      rw [hval] at hr
      exact ih d a ha hnd hca r hr

lemma backtrack_sound (cw : Crossword) :
    ∀ (fuel : Nat) (d : Domains) (a : AssignL),
      (a.map Prod.fst).Nodup → consistent cw a = true →
      ∀ r, (backtrack cw fuel d a).res = some r → GoodAssign cw r := by
  intro fuel
  induction fuel with
  | zero => intro d a _ _ r hr; cases hr
  | succ n ih =>
    intro d a hnd hca r hr
    by_cases hcomp : assignment_complete cw a = true
    · have hval : backtrack cw (n + 1) d a = ⟨some a, a, d, 1⟩ := by
        rw [backtrack]
        simp only [hcomp, if_true]
      rw [hval] at hr
      injection hr with hr
      rw [← hr]
      exact ⟨hcomp, hca, hnd⟩
    · rcases hsel : select_unassigned_variable cw d a with _ | var
      · have hval : backtrack cw (n + 1) d a = ⟨none, a, d, 1⟩ := by
          rw [backtrack]
          simp only [hcomp, Bool.false_eq_true, if_false, hsel]
        rw [hval] at hr
        cases hr
      · have hval : backtrack cw (n + 1) d a =
            ⟨(tryValues cw (backtrack cw n) var
                (order_domain_values cw d var a) d a).res,
              (tryValues cw (backtrack cw n) var
                (order_domain_values cw d var a) d a).assign,
              (tryValues cw (backtrack cw n) var
                (order_domain_values cw d var a) d a).doms,
              1 + (tryValues cw (backtrack cw n) var
                (order_domain_values cw d var a) d a).calls⟩ := by
          rw [backtrack]
          simp only [hcomp, Bool.false_eq_true, if_false, hsel]
        rw [hval] at hr
        have hvar : var ∉ a.map Prod.fst := select_unassigned_of_mem hsel
        exact tryValues_sound cw (backtrack cw n) var
          (fun d b r h1 h2 h3 => ih d b h1 h2 r h3)
          (fun d b => (backtrack_frame cw n d b).2.1)
          (fun d b => (backtrack_frame cw n d b).1)
          (fun d b r h1 h2 => (backtrack_frame cw n d b).2.2 r h1 h2)
          (order_domain_values cw d var a) d a hvar hnd hca r hr

/-- C2: any non-`none` assignment returned by `solve` is complete (its key
set equals the variable set) and consistent: pairwise-distinct words, every
word's length matches its slot, and agreeing letters at every overlap of two
assigned slots.  In particular `solve` never returns a partial assignment. -/
theorem c2_solve_sound (cw : Crossword) (r : AssignL)
    (h : solve cw = some r) :
    (∀ v, v ∈ r.map Prod.fst ↔ v ∈ cw.vars) ∧
      (r.map Prod.snd).Nodup ∧
      (∀ p ∈ r, p.2.length = p.1.length) ∧
      (∀ p ∈ r, ∀ q ∈ r, p.1 ≠ q.1 → ∀ i j,
        cw.overlaps p.1 q.1 = some (i, j) →
          letterAt p.2 i = letterAt q.2 j) := by
  have hsf : solve cw =
      (backtrack cw (cw.vars.length + 1)
        (ac3 cw (enforce_node_consistency cw (initialDomains cw)) none).2
        []).res := rfl
  rw [hsf] at h
  have hgood : GoodAssign cw r :=
    backtrack_sound cw _ _ [] (by simp) (consistent_nil cw) r h
  obtain ⟨hcomp, hcons, hnd⟩ := hgood
  have hkeys := assignment_complete_keys hcomp
  have hspec := consistent_spec hcons
  refine ⟨hkeys, hspec.1, hspec.2.1, ?_⟩
  intro p hp q hq hne i j hov
  have hq1v : q.1 ∈ cw.vars :=
    (hkeys q.1).mp (List.mem_map.mpr ⟨q, hq, rfl⟩)
  have hnb : q.1 ∈ neighborsOf cw p.1 :=
    neighborsOf_mem.mpr ⟨hq1v, Ne.symm hne, by rw [hov]; rfl⟩
  have hlk : r.lookup q.1 = some q.2 :=
    lookup_eq_of_mem hnd (by rw [show (q.1, q.2) = q from rfl]; exact hq)
  exact hspec.2.2 p hp q.1 hnb q.2 hlk i j hov

theorem c2_witness :
    solve cwSingle = some [(slotA, ['a', 'b'])] ∧
      ((∀ v, v ∈ ([(slotA, ['a', 'b'])] : AssignL).map Prod.fst ↔
          v ∈ cwSingle.vars) ∧
        (([(slotA, ['a', 'b'])] : AssignL).map Prod.snd).Nodup ∧
        (∀ p ∈ ([(slotA, ['a', 'b'])] : AssignL), p.2.length = p.1.length) ∧
        (∀ p ∈ ([(slotA, ['a', 'b'])] : AssignL),
          ∀ q ∈ ([(slotA, ['a', 'b'])] : AssignL), p.1 ≠ q.1 → ∀ i j,
            cwSingle.overlaps p.1 q.1 = some (i, j) →
              letterAt p.2 i = letterAt q.2 j)) :=
  ⟨by decide, c2_solve_sound cwSingle [(slotA, ['a', 'b'])] (by decide)⟩

/-! ### Trivial cases of the search (C10) -/

/-- C10: on a puzzle with no variables, `solve` returns the empty assignment
(`some []`), not the "no solution" signal; and `backtrack` applied to any
complete assignment returns it immediately — one invocation, no variable
selected, assignment and domain store untouched. -/
theorem c10_trivial (cw : Crossword) (d : Domains) (fuel : Nat) (a : AssignL) :
    (cw.vars = [] → solve cw = some []) ∧
      (assignment_complete cw a = true →
        backtrack cw (fuel + 1) d a = ⟨some a, a, d, 1⟩) := by
  constructor
  · intro hv
    have hc : assignment_complete cw [] = true := by
      simp [assignment_complete, hv]
    have hsf : solve cw =
        (backtrack cw (cw.vars.length + 1)
          (ac3 cw (enforce_node_consistency cw (initialDomains cw)) none).2
          []).res := rfl
    rw [hsf, backtrack]
    simp only [hc, if_true]
  · intro hc
    rw [backtrack]
    simp only [hc, if_true]

theorem c10_witness :
    solve cwNoVars = some [] ∧
      backtrack cwNoVars 1 emptyDoms [] = ⟨some [], [], emptyDoms, 1⟩ :=
  ⟨(c10_trivial cwNoVars emptyDoms 0 []).1 rfl,
    (c10_trivial cwNoVars emptyDoms 0 []).2 (by decide)⟩

/-! ### Arc-consistency fixpoint (C4) -/

/-- A directed arc `(x, y)` with overlap `(i, j)` is supported: every
candidate of `x` agrees with some candidate of `y` at the shared cell. -/
def supportedArc (d : Domains) (x y : Slot) (i j : Nat) : Prop :=
  ∀ wx ∈ d x, ∃ wy ∈ d y, letterAt wx i = letterAt wy j

/-- Well-formedness of the overlap relation per the spec's data model (§3):
the relation is symmetric with mirrored index pairs. -/
def SymmetricOverlaps (cw : Crossword) : Prop :=
  ∀ x y i j, cw.overlaps x y = some (i, j) → cw.overlaps y x = some (j, i)

/-- Queue sanity maintained by the AC-3 loop: both endpoints of every queued
arc are puzzle variables, and they differ. -/
def QueueWF (cw : Crossword) (q : List (Slot × Slot)) : Prop :=
  ∀ p ∈ q, p.1 ∈ cw.vars ∧ p.2 ∈ cw.vars ∧ p.1 ≠ p.2

/-- The AC-3 loop invariant: every overlapping ordered pair of distinct
variables is either still queued or currently supported. -/
def ArcInv (cw : Crossword) (q : List (Slot × Slot)) (d : Domains) : Prop :=
  ∀ x y i j, x ∈ cw.vars → y ∈ cw.vars → x ≠ y →
    cw.overlaps x y = some (i, j) → (x, y) ∈ q ∨ supportedArc d x y i j

lemma supportedArc_congr {d1 d2 : Domains} {x y : Slot} {i j : Nat}
    (hx : d1 x = d2 x) (hy : d1 y = d2 y) :
    supportedArc d1 x y i j ↔ supportedArc d2 x y i j := by
  unfold supportedArc
  rw [hx, hy]

lemma revise_supports {cw : Crossword} {d : Domains} {a b : Slot} {i j : Nat}
    (hov : cw.overlaps a b = some (i, j)) (hab : a ≠ b) :
    supportedArc ((revise cw d a b).2) a b i j := by
  intro wx hwx
  have hwx2 := hwx
  rw [revise_mem_some hov] at hwx2
  rcases hwx2.2 with ⟨wy, hwy, heq⟩
  refine ⟨wy, ?_, heq⟩
  rw [revise_snd_ne cw d a b (Ne.symm hab)]
  exact hwy

lemma revise_keeps_support {cw : Crossword} (hsym : SymmetricOverlaps cw)
    {d : Domains} {a b : Slot} {i j : Nat} (hab : a ≠ b)
    (hov : cw.overlaps b a = some (i, j))
    (hsup : supportedArc d b a i j) :
    supportedArc ((revise cw d a b).2) b a i j := by
  intro wb hwb
  rw [revise_snd_ne cw d a b (Ne.symm hab)] at hwb
  rcases hsup wb hwb with ⟨wa, hwa, heq⟩
  refine ⟨wa, ?_, heq⟩
  have hovab : cw.overlaps a b = some (j, i) := hsym b a i j hov
  rw [revise_mem_some hovab]
  exact ⟨hwa, wb, hwb, heq.symm⟩

lemma ac3Loop_fixpoint (cw : Crossword) (hsym : SymmetricOverlaps cw) :
    ∀ fuel (q : List (Slot × Slot)) (d d2 : Domains),
      QueueWF cw q → ArcInv cw q d →
      ac3Loop cw fuel q d = some (true, d2) →
      ∀ x y i j, x ∈ cw.vars → y ∈ cw.vars → x ≠ y →
        cw.overlaps x y = some (i, j) → supportedArc d2 x y i j := by
  intro fuel
  induction fuel with
  | zero => intro q d d2 _ _ h; exact absurd h (by simp [ac3Loop])
  | succ n ih =>
    intro q d d2 hwf hinv h
    match q with
    | [] =>
      rw [ac3Loop] at h
      simp only [Option.some_inj, Prod.mk.injEq] at h
      intro x y i j hx hy hxy hov
      rcases hinv x y i j hx hy hxy hov with hq | hs
      · cases hq
      · rw [← h.2]
        exact hs
    | (a, b) :: rest =>
      rw [ac3Loop] at h
      obtain ⟨hav, hbv, hab⟩ := hwf (a, b) (List.mem_cons_self _ _)
      by_cases hrev : (revise cw d a b).1
      · simp only [hrev, if_true] at h
        by_cases hemp : ((revise cw d a b).2 a).isEmpty
        · simp only [hemp, if_true, Option.some_inj, Prod.mk.injEq] at h
          exact absurd h.1 (by simp)
        · simp only [hemp, Bool.false_eq_true, if_false] at h
          refine ih _ _ _ ?_ ?_ h
          · intro p hp
            rcases List.mem_append.mp hp with hp | hp
            · exact hwf p (List.mem_cons_of_mem _ hp)
            · rcases List.mem_map.mp hp with ⟨z, hz, rfl⟩
              have hzn := neighborsOf_mem.mp (List.mem_of_mem_filter hz)
              exact ⟨hzn.1, hav, hzn.2.1⟩
          · intro x y i j hx hy hxy hov
            rcases hinv x y i j hx hy hxy hov with hq | hs
            · rcases List.mem_cons.mp hq with heq | hq
              · rw [Prod.mk.injEq] at heq
                obtain ⟨rfl, rfl⟩ := heq
                exact Or.inr (revise_supports hov hab)
              · exact Or.inl (List.mem_append_left _ hq)
            · by_cases hya : y = a
              · subst hya
                by_cases hxb : x = b
                · subst hxb
                  exact Or.inr (revise_keeps_support hsym hab hov hs)
                · left
                  apply List.mem_append_right
                  apply List.mem_map.mpr
                  refine ⟨x, ?_, rfl⟩
                  apply List.mem_filter.mpr
                  refine ⟨?_, by simpa using hxb⟩
                  exact neighborsOf_mem.mpr
                    ⟨hx, hxy, by rw [hsym x y i j hov]; rfl⟩
              · by_cases hxa : x = a
                · subst hxa
                  right
                  intro wx hwx
                  rcases hs wx (revise_sub cw d x b hwx) with ⟨wy, hwy, heq⟩
                  refine ⟨wy, ?_, heq⟩
                  rw [revise_snd_ne cw d x b hya]
                  exact hwy
                · right
                  rw [supportedArc_congr (revise_snd_ne cw d a b hxa)
                    (revise_snd_ne cw d a b hya)]
                  exact hs
      · simp only [hrev, Bool.false_eq_true, if_false] at h
        refine ih _ _ _
          (fun p hp => hwf p (List.mem_cons_of_mem _ hp)) ?_ h
        intro x y i j hx hy hxy hov
        rcases hinv x y i j hx hy hxy hov with hq | hs
        · rcases List.mem_cons.mp hq with heq | hq
          · rw [Prod.mk.injEq] at heq
            obtain ⟨rfl, rfl⟩ := heq
            exact Or.inr (revise_supports hov hab)
          · exact Or.inl hq
        · right
          have hfp := revise_false_pointwise (Bool.not_eq_true _ ▸ hrev)
          rw [supportedArc_congr (hfp x) (hfp y)]
          exact hs

lemma updateD_self (d : Domains) (x : Slot) : updateD d x (d x) = d := by
  funext v
  unfold updateD
  split
  · rename_i hv
    rw [hv]
  · rfl

/-- C4: after `ac3` with the default arc queue returns `True`, the domain
store is at an arc-consistent fixpoint: for every ordered pair of variables
with a recorded overlap, every remaining candidate of the first has an
agreeing candidate of the second, so running `revise` again removes nothing
and returns `False`.  (Symmetry and irreflexivity of the overlap relation are
the spec's data-model well-formedness conditions, §3.) -/
theorem c4_fixpoint (cw : Crossword) (d : Domains)
    (hsym : SymmetricOverlaps cw)
    (hself : ∀ v, cw.overlaps v v = none)
    (h : (ac3 cw d none).1 = true)
    (x y : Slot) (i j : Nat) (hx : x ∈ cw.vars) (hy : y ∈ cw.vars)
    (hov : cw.overlaps x y = some (i, j)) :
    (∀ wx ∈ (ac3 cw d none).2 x, ∃ wy ∈ (ac3 cw d none).2 y,
      letterAt wx i = letterAt wy j) ∧
      revise cw ((ac3 cw d none).2) x y = (false, (ac3 cw d none).2) := by
  have hxy : x ≠ y := by
    intro he
    rw [he, hself y] at hov
    cases hov
  rcases ac3_eq_loop cw d none with ⟨b, d2, hloop, heq⟩
  have hb : b = true := by rw [heq] at h; exact h
  subst hb
  have hwf : QueueWF cw ((none : Option (List (Slot × Slot))).getD
      (defaultArcs cw)) := by
    intro p hp
    simp only [Option.getD_none] at hp
    unfold defaultArcs at hp
    rcases List.mem_flatMap.mp hp with ⟨x0, hx0, hp2⟩
    rcases List.mem_map.mp hp2 with ⟨y0, hy0, rfl⟩
    have hn := neighborsOf_mem.mp hy0
    exact ⟨hx0, hn.1, Ne.symm hn.2.1⟩
  have hinv : ArcInv cw ((none : Option (List (Slot × Slot))).getD
      (defaultArcs cw)) d := by
    intro x0 y0 i0 j0 hx0 hy0 hxy0 hov0
    left
    simp only [Option.getD_none]
    unfold defaultArcs
    apply List.mem_flatMap.mpr
    refine ⟨x0, hx0, ?_⟩
    apply List.mem_map.mpr
    refine ⟨y0, ?_, rfl⟩
    exact neighborsOf_mem.mpr ⟨hy0, Ne.symm hxy0, by rw [hov0]; rfl⟩
  have hsup := ac3Loop_fixpoint cw hsym _ _ _ _ hwf hinv hloop x y i j hx hy
    hxy hov
  rw [heq]
  refine ⟨hsup, ?_⟩
  have hall : ∀ wx ∈ d2 x,
      ((d2 y).any (fun wy => letterAt wx i == letterAt wy j)) = true := by
    intro wx hwx
    rcases hsup wx hwx with ⟨wy, hwy, heq2⟩
    exact List.any_eq_true.mpr ⟨wy, hwy, beq_iff_eq.mpr heq2⟩
  have hfil : (d2 x).filter
      (fun wx => (d2 y).any (fun wy => letterAt wx i == letterAt wy j)) =
      d2 x := List.filter_eq_self.mpr hall
  show revise cw d2 x y = (false, d2)
  unfold revise
  rw [hov]
  simp only [hfil, updateD_self, bne_self_eq_false]

lemma cwPair_symm : SymmetricOverlaps cwPair := by
  intro x y i j h
  have hov : cwPair.overlaps = ovWit := rfl
  rw [hov] at h ⊢
  unfold ovWit at h
  split_ifs at h with h1 h2
  · obtain ⟨rfl, rfl⟩ := h1
    injection h with h
    injection h with hi hj
    subst hi
    subst hj
    decide
  · obtain ⟨rfl, rfl⟩ := h2
    injection h with h
    injection h with hi hj
    subst hi
    subst hj
    decide

lemma cwPair_irrefl : ∀ v, cwPair.overlaps v v = none := by
  intro v
  have hov : cwPair.overlaps = ovWit := rfl
  rw [hov]
  unfold ovWit
  split_ifs with h1 h2
  · obtain ⟨rfl, h1'⟩ := h1
    exact absurd h1' (by decide)
  · obtain ⟨rfl, h2'⟩ := h2
    exact absurd h2' (by decide)
  · rfl

theorem c4_witness :
    (SymmetricOverlaps cwPair ∧ (∀ v, cwPair.overlaps v v = none) ∧
      (ac3 cwPair (enforce_node_consistency cwPair (initialDomains cwPair))
        none).1 = true ∧
      slotA ∈ cwPair.vars ∧ slotB ∈ cwPair.vars ∧
      cwPair.overlaps slotA slotB = some (1, 0)) ∧
    ((∀ wx ∈ (ac3 cwPair
          (enforce_node_consistency cwPair (initialDomains cwPair)) none).2
          slotA,
        ∃ wy ∈ (ac3 cwPair
          (enforce_node_consistency cwPair (initialDomains cwPair)) none).2
          slotB,
          letterAt wx 1 = letterAt wy 0) ∧
      revise cwPair
          ((ac3 cwPair
            (enforce_node_consistency cwPair (initialDomains cwPair))
            none).2) slotA slotB =
        (false,
          (ac3 cwPair
            (enforce_node_consistency cwPair (initialDomains cwPair))
            none).2)) :=
  ⟨⟨cwPair_symm, cwPair_irrefl, by decide, by decide, by decide, by decide⟩,
    c4_fixpoint cwPair
      (enforce_node_consistency cwPair (initialDomains cwPair))
      cwPair_symm cwPair_irrefl (by decide) slotA slotB 1 0 (by decide)
      (by decide) (by decide)⟩
